import Mathlib

/-!
# Verification of the Earley chart parser (earley-parser.py)

A shallow embedding of the parsing engine of `earley-parser.py`:
the grammar model (`Rule`), chart states (`State`), the chart
(a list of columns, each a list of states in insertion order),
the predict / scan / complete operations, the column-worklist
driving loop, acceptance testing and backpointer-driven tree
reconstruction.

Python's mutable chart is modelled by explicit chart passing.
The worklist loops of the source (`complete` iterates a column that
may grow while it is being iterated, and `parse`'s `while j < len(chart[i])`
re-reads the column length on each step) are modelled with an explicit
fuel parameter; running out of fuel yields `none`, so every `some` result
of `buildChart` / `parseF` is a faithful image of a terminating Python run.
-/

namespace Earley

/-- A grammar rule: a head symbol and a list of body symbols
(empty body = epsilon rule).  Mirrors `class Rule`. -/
structure Rule where
  head : String
  body : List String
deriving DecidableEq

/-- An Earley item: rule, dot position, origin column and
one (start, end) backpointer span per matched body symbol.
Mirrors `class State`. -/
structure State where
  rule : Rule
  dot : Nat
  start : Nat
  backpointers : List (Nat × Nat)
deriving DecidableEq

/-- `State.next_symbol`: the body symbol after the dot, if any. -/
def State.nextSymbol (st : State) : Option String :=
  st.rule.body[st.dot]?

/-- `State.is_complete`: the dot has reached the end of the body. -/
def State.isComplete (st : State) : Bool :=
  decide (st.rule.body.length ≤ st.dot)

/-- A parse tree node: a symbol with an ordered list of children.
Mirrors `class ParseTree` (leaves are childless nodes). -/
inductive ParseTree where
  | node (symbol : String) (children : List ParseTree)

/-- The nonterminal test of the source: a nonempty symbol whose first
character is uppercase (`next_symbol[0].isupper()`; ASCII case, which
agrees with Python on every symbol the claims involve, in particular
on the reserved lowercase letter γ). -/
def isNT (s : String) : Bool :=
  !s.isEmpty && s.front.isUpper

/-- The guard `state.next_symbol and state.next_symbol[0].isupper()`
used both in `parse`'s dispatch and in `predict` (Python's truthiness
makes `None` and the empty string fail the guard). -/
def nextIsNT (st : State) : Bool :=
  match st.nextSymbol with
  | some s => isNT s
  | none => false

/-- The chart: one column (list of states in insertion order) per
input position `0..N`. -/
abbrev Chart := List (List State)

/-- `_add_to_chart` for the nonnegative column indices the engine
actually uses: no-op when `pos` is past the last column or an equal
state (full structural equality) is already present; otherwise append. -/
def addToChart (chart : Chart) (st : State) (pos : Nat) : Chart :=
  if chart.length ≤ pos then chart
  else if st ∈ chart.getD pos [] then chart
  else chart.set pos (chart.getD pos [] ++ [st])

/-- `_add_to_chart` over arbitrary Python integers, with Python's list
indexing semantics: `pos >= len(chart)` returns without inserting;
`-len(chart) <= pos < 0` wraps around to column `len(chart) + pos`;
`pos < -len(chart)` raises `IndexError` (modelled as `none`). -/
def addToChartI (chart : Chart) (st : State) (pos : Int) : Option Chart :=
  if (chart.length : Int) ≤ pos then some chart
  else if 0 ≤ pos then some (addToChart chart st pos.toNat)
  else if -(chart.length : Int) ≤ pos then
    some (addToChart chart st (chart.length - (-pos).toNat))
  else none

/-- The advanced state built by both `scan` and `complete`:
move the dot over one symbol and record the span `(a, b)`. -/
def advanceState (s : State) (a b : Nat) : State :=
  ⟨s.rule, s.dot + 1, s.start, s.backpointers ++ [(a, b)]⟩

/-- `scan(state, position, words)`: when `position` is inside the input
and the (truthy) next symbol literally equals `words[position]`, add the
advanced state with span `(position, position+1)` to column `position+1`. -/
def scanF (words : List String) (chart : Chart) (st : State) (i : Nat) : Chart :=
  if h : i < words.length then
    match st.nextSymbol with
    | some sym =>
        if sym ≠ "" ∧ sym = words.get ⟨i, h⟩ then
          addToChart chart (advanceState st i (i + 1)) (i + 1)
        else chart
    | none => chart
  else chart

/-- The loop body of `complete(state, i)`: `for s in self.chart[state.start]`.
Python iterates by index over a list that `_add_to_chart` may be appending
to (when `i = state.start`), so newly added states are visited too; the
index `k` re-reads the current column on every step.  Fuel bounds the
number of iterations; exhaustion yields `none`. -/
def completeLoop (fuel : Nat) (st : State) (i : Nat) (chart : Chart) (k : Nat) :
    Option Chart :=
  match fuel with
  | 0 => none
  | fuel' + 1 =>
    if h : k < (chart.getD st.start []).length then
      completeLoop fuel' st i
        (if ((chart.getD st.start []).get ⟨k, h⟩).isComplete = false ∧
            ((chart.getD st.start []).get ⟨k, h⟩).nextSymbol =
              some st.rule.head then
          addToChart chart
            (advanceState ((chart.getD st.start []).get ⟨k, h⟩) st.start i) i
        else chart)
        (k + 1)
    else some chart

/-- `complete(state, i)`: returns unchanged unless `state` is complete;
otherwise advances every waiting state of column `state.start`
(including, when `i = state.start`, states added by this very loop)
and adds the advanced states to column `i`. -/
def completeF (fuel : Nat) (chart : Chart) (st : State) (i : Nat) : Option Chart :=
  if st.isComplete then completeLoop fuel st i chart 0 else some chart

/-- The rule loop of `predict`: for each grammar rule headed by `sym`,
add the fresh dot-0 state at column `i`; an empty-body rule is
immediately handed to `complete` at position `i`. -/
def predictLoop (fuel : Nat) (sym : String) (i : Nat) :
    List Rule → Chart → Option Chart
  | [], chart => some chart
  | r :: rs, chart =>
    if r.head = sym then
      match (if r.body.isEmpty then
          completeF fuel (addToChart chart ⟨r, 0, i, []⟩ i) ⟨r, 0, i, []⟩ i
        else some (addToChart chart ⟨r, 0, i, []⟩ i)) with
      | none => none
      | some c2 => predictLoop fuel sym i rs c2
    else predictLoop fuel sym i rs chart

/-- `predict(state, position)`: guarded by the same truthy-uppercase test
as the dispatch; expands every rule headed by the next symbol. -/
def predictF (fuel : Nat) (rules : List Rule) (chart : Chart) (st : State)
    (i : Nat) : Option Chart :=
  match st.nextSymbol with
  | some sym => if isNT sym then predictLoop fuel sym i rules chart else some chart
  | none => some chart

/-- The reserved augmented start rule `γ → S` added by `parse`. -/
def startRule : Rule := ⟨"γ", ["S"]⟩

/-- The column-worklist driver of `parse`:
`for i in range(len(words)+1): while j < len(chart[i]): dispatch; j += 1`.
One unit of fuel per processed state or column advance. -/
def runColumns (fuel : Nat) (rules : List Rule) (words : List String)
    (chart : Chart) (i j : Nat) : Option Chart :=
  match fuel with
  | 0 => none
  | fuel' + 1 =>
    if i < words.length + 1 then
      if h : j < (chart.getD i []).length then
        match (if ((chart.getD i []).get ⟨j, h⟩).isComplete = false then
            if nextIsNT ((chart.getD i []).get ⟨j, h⟩) then
              predictF fuel' rules chart ((chart.getD i []).get ⟨j, h⟩) i
            else some (scanF words chart ((chart.getD i []).get ⟨j, h⟩) i)
          else completeF fuel' chart ((chart.getD i []).get ⟨j, h⟩) i) with
        | none => none
        | some c2 => runColumns fuel' rules words c2 i (j + 1)
      else runColumns fuel' rules words chart (i + 1) 0
    else some chart

/-- Chart construction as done by `parse`: a fresh chart of
`len(words) + 1` empty columns, the initial `γ → • S` state at column 0,
then the worklist driver. -/
def buildChart (fuel : Nat) (rules : List Rule) (words : List String) :
    Option Chart :=
  let chart0 : Chart := List.replicate (words.length + 1) []
  let chart1 := addToChart chart0 ⟨startRule, 0, 0, []⟩ 0
  runColumns fuel rules words chart1 0 0

/-- The acceptance predicate `parse` applies to states of the last column:
head `γ`, complete, started at 0. -/
def gammaPred (st : State) : Bool :=
  st.rule.head == "γ" && st.isComplete && st.start == 0

/-- The tree-root search predicate of `parse`: complete, head `S`,
started at 0, at least one backpointer. -/
def sPred (st : State) : Bool :=
  st.isComplete && st.rule.head == "S" && st.start == 0 &&
    decide (0 < st.backpointers.length)

/-- The child loop of `_build_tree`, abstracted over the recursive call
`recur` (which `buildTreeF` instantiates with itself at one less fuel).
For body symbol `sym` with backpointer span `(a, b)`: a nonterminal
looks up the first complete state of column `b` with matching head and
start and recurses into it (when the lookup fails the child is silently
skipped, as in the source); a terminal appends a leaf holding
`words[a]`.  A missing backpointer or an out-of-range `words[a]` is a
Python `IndexError`, modelled as `none`. -/
def childrenGo (recur : State → Nat → Option ParseTree) (chart : Chart)
    (words : List String) :
    List String → List (Nat × Nat) → Option (List ParseTree)
  | [], _ => some []
  | _ :: _, [] => none
  | sym :: syms', (a, b) :: bps' =>
    if isNT sym then
      match (chart.getD b []).find?
          (fun s => s.isComplete && s.rule.head == sym && s.start == a) with
      | some s2 =>
        match recur s2 b with
        | none => none
        | some t =>
          match childrenGo recur chart words syms' bps' with
          | none => none
          | some rest => some (t :: rest)
      | none => childrenGo recur chart words syms' bps'
    else
      match words[a]? with
      | some w =>
        match childrenGo recur chart words syms' bps' with
        | none => none
        | some rest => some (ParseTree.node w [] :: rest)
      | none => none

/-- `_build_tree(state, pos, words)` (the `pos` argument is unused by the
source, and kept for signature fidelity): an empty-body rule yields a
childless node; otherwise the children are collected over the body
symbols and their backpointers.  Fuel bounds the recursion depth
(defined through `Nat.rec` so that concrete runs compute). -/
def buildTreeF (fuel : Nat) (chart : Chart) (words : List String)
    (st : State) (pos : Nat) : Option ParseTree :=
  Nat.rec (motive := fun _ => State → Nat → Option ParseTree)
    (fun _ _ => none)
    (fun _ recur st2 _ =>
      if st2.rule.body.isEmpty then some (ParseTree.node st2.rule.head [])
      else
        match childrenGo recur chart words st2.rule.body st2.backpointers with
        | none => none
        | some cs => some (ParseTree.node st2.rule.head cs))
    fuel st pos

/-- `parse`, keeping the built chart in the result: build the chart,
test acceptance on the last column, and on acceptance reconstruct a
tree from the first matching `S` state (if any). -/
def parseFull (fuel : Nat) (rules : List Rule) (words : List String) :
    Option (Chart × Bool × Option ParseTree) :=
  match buildChart fuel rules words with
  | none => none
  | some chart =>
    match (chart.getD words.length []).find? gammaPred with
    | none => some (chart, false, none)
    | some _ =>
      match (chart.getD words.length []).find? sPred with
      | none => some (chart, true, none)
      | some sst =>
        match buildTreeF fuel chart words sst words.length with
        | none => none
        | some t => some (chart, true, some t)

/-- `parse(sentence)` restricted to its observable result
`(accepted, tree)`. -/
def parseF (fuel : Nat) (rules : List Rule) (words : List String) :
    Option (Bool × Option ParseTree) :=
  (parseFull fuel rules words).map (fun x => x.2)

/-- The mutable parser object: its grammar and the chart field left
behind by the previous `parse` call (`self.rules`, `self.chart`). -/
structure EarleyEngine where
  rules : List Rule
  chart : Chart

/-- A `parse` call on the parser object: the chart field is rebuilt from
scratch (`self.chart = [[] for ...]`), so the incoming chart is never
read; the rebuilt chart is left in the returned object. -/
def parseRun (fuel : Nat) (p : EarleyEngine) (words : List String) :
    Option (EarleyEngine × Bool × Option ParseTree) :=
  match parseFull fuel p.rules words with
  | none => none
  | some (chart, b, t) => some (⟨p.rules, chart⟩, b, t)

/-- The token yield of a parse tree, read left to right: childless
nodes labelled by a nonterminal (epsilon derivations) contribute no
tokens, childless nodes labelled by a terminal are leaves holding one
token, inner nodes concatenate their children's yields. -/
def ParseTree.leaves : ParseTree → List String
  | ParseTree.node sym cs =>
    if cs.isEmpty then (if isNT sym then [] else [sym])
    else (cs.attach.map (fun c => ParseTree.leaves c.1)).flatten
termination_by t => sizeOf t
decreasing_by
  simp_wf
  have := List.sizeOf_lt_of_mem c.2
  omega

/-! ## Invariants of the chart -/

/-- Chain the backpointer spans of a state: starting from position `p`,
each span must begin where the previous one ended; the result is the
position reached after the last span. -/
def spanChain : Nat → List (Nat × Nat) → Option Nat
  | p, [] => some p
  | p, (a, b) :: l => if a = p then spanChain b l else none

/-- No rule body mentions the reserved start symbol `γ`. -/
def noGammaBodies (rules : List Rule) : Bool :=
  rules.all (fun r => !r.body.contains "γ")

/-- The per-backpointer well-formedness: a nonterminal span `(a, b)` is
justified by a complete state of column `b` with matching head and
start `a`; a terminal span is `(a, a+1)` with `words[a]` equal to the
symbol. -/
def bpProp (chart : Chart) (words : List String) (sym : String)
    (a b : Nat) : Prop :=
  if isNT sym then
    ∃ st2, st2 ∈ chart.getD b [] ∧ st2.isComplete = true ∧
      st2.rule.head = sym ∧ st2.start = a
  else b = a + 1 ∧ words[a]? = some sym

/-- The chart invariant maintained by the engine.  States live in the
column their spans reach; rules are the augmented start rule (always at
start 0) or grammar rules with a nonterminal head; columns are
duplicate-free; and (for grammars whose bodies avoid the reserved `γ`)
every backpointer is justified. -/
structure ChartInv (rules : List Rule) (words : List String)
    (chart : Chart) : Prop where
  size : chart.length = words.length + 1
  nodup : ∀ e, (chart.getD e []).Nodup
  ruleOK : ∀ e st, st ∈ chart.getD e [] →
    (st.rule = startRule ∧ st.start = 0) ∨
      (isNT st.rule.head = true ∧ st.rule ∈ rules)
  dotOK : ∀ e st, st ∈ chart.getD e [] → st.dot ≤ st.rule.body.length
  lenOK : ∀ e st, st ∈ chart.getD e [] →
    st.backpointers.length = st.dot
  chainOK : ∀ e st, st ∈ chart.getD e [] →
    spanChain st.start st.backpointers = some e
  monoOK : ∀ e st, st ∈ chart.getD e [] →
    ∀ bp ∈ st.backpointers, bp.1 ≤ bp.2
  bpOK : noGammaBodies rules = true → ∀ e st, st ∈ chart.getD e [] →
    ∀ (j a b : Nat) (sym : String), st.backpointers[j]? = some (a, b) →
      st.rule.body[j]? = some sym → bpProp chart words sym a b

/-- The obligations a single insertion must meet to preserve
`ChartInv` when `addToChart chart st pos` is performed. -/
structure NewState (rules : List Rule) (words : List String)
    (chart : Chart) (st : State) (pos : Nat) : Prop where
  ruleOK : (st.rule = startRule ∧ st.start = 0) ∨
    (isNT st.rule.head = true ∧ st.rule ∈ rules)
  dotOK : st.dot ≤ st.rule.body.length
  lenOK : st.backpointers.length = st.dot
  chainOK : spanChain st.start st.backpointers = some pos
  monoOK : ∀ bp ∈ st.backpointers, bp.1 ≤ bp.2
  bpOK : noGammaBodies rules = true →
    ∀ (j a b : Nat) (sym : String), st.backpointers[j]? = some (a, b) →
      st.rule.body[j]? = some sym → bpProp chart words sym a b

/-- Chart growth: same number of columns, every column extended only at
its end (the image in the new chart has the old column as a prefix). -/
def Grows (c c' : Chart) : Prop :=
  c.length = c'.length ∧ ∀ e, c.getD e [] <+: c'.getD e []

/-- Every column of the chart is duplicate-free (the C3 property). -/
def colsNodup (c : Chart) : Prop := ∀ e, (c.getD e []).Nodup

/-- The C4 property of one state stored in column `e`: backpointer count
equals the dot; a dot-0 state starts at its column; otherwise the last
span ends at the column. -/
def stateSpanOK (st : State) (e : Nat) : Prop :=
  st.backpointers.length = st.dot ∧
  (st.dot = 0 → st.start = e) ∧
  (0 < st.dot → ∃ a, st.backpointers.getLast? = some (a, e))

/-- The C4 property for every state of every column. -/
def chartSpanOK (c : Chart) : Prop :=
  ∀ e st, st ∈ c.getD e [] → stateSpanOK st e

/-- Modelled from the claim wording of C5 (spec §4.3): advance every
incomplete state waiting on `st.rule.head` in column `st.start` **as it
stands on entry**, adding each advanced state to column `i`.  The source
instead iterates a column that its own insertions may extend. -/
def completeBySpec (chart : Chart) (st : State) (i : Nat) : Chart :=
  (chart.getD st.start []).foldl
    (fun c s =>
      if s.isComplete = false ∧ s.nextSymbol = some st.rule.head then
        addToChart c (advanceState s st.start i) i
      else c)
    chart

/-! ## Concrete inputs used by witnesses and counterexamples -/

/-- The epsilon-handling grammar of C6: `S → A x`, `A → ε`. -/
def c6rules : List Rule := [⟨"S", ["A", "x"]⟩, ⟨"A", []⟩]

/-- The expected C6 parse tree `S(A(), "x")`. -/
def c6tree : ParseTree :=
  ParseTree.node "S" [ParseTree.node "A" [], ParseTree.node "x" []]

/-- A grammar whose second rule mentions the reserved symbol `γ` in its
body: `S → ε`, `S → γ x`. -/
def gammaRules : List Rule := [⟨"S", []⟩, ⟨"S", ["γ", "x"]⟩]

/-- A one-column chart holding the single state `X → • A A`. -/
def selfFeedChart : Chart := [[⟨⟨"X", ["A", "A"]⟩, 0, 0, []⟩]]

/-- The complete epsilon state `A → •` at position 0. -/
def epsAState : State := ⟨⟨"A", []⟩, 0, 0, []⟩

/-- A complete state `S → A •` with span `(0, 1)`, used against a chart
whose column 1 has no matching `A` state. -/
def orphanState : State := ⟨⟨"S", ["A"]⟩, 1, 0, [(0, 1)]⟩

/-! ## Basic lemmas about columns and `addToChart` -/

theorem col_nil_of_le {c : Chart} {e : Nat} (h : c.length ≤ e) :
    c.getD e [] = [] := by
  simp [List.getD_eq_getElem?_getD, List.getElem?_eq_none h]

theorem lt_length_of_mem_col {c : Chart} {e : Nat} {st : State}
    (h : st ∈ c.getD e []) : e < c.length := by
  by_contra hc
  rw [col_nil_of_le (Nat.le_of_not_lt hc)] at h
  exact absurd h (List.not_mem_nil st)

theorem col_set {c : Chart} {p e : Nat} {l : List State} :
    (c.set p l).getD e [] =
      if p = e ∧ p < c.length then l else c.getD e [] := by
  induction c generalizing p e with
  | nil => simp [List.getD]
  | cons hd tl ih =>
    cases p with
    | zero => cases e <;> simp [List.getD, Nat.succ_pos]
    | succ p' =>
      cases e with
      | zero => simp [List.getD]
      | succ e' =>
        simp only [List.set, List.getD_cons_succ, ih, List.length_cons]
        congr 1
        simp only [eq_iff_iff]
        constructor <;> (rintro ⟨h1, h2⟩; exact ⟨by omega, by omega⟩)

theorem addToChart_length (c : Chart) (st : State) (pos : Nat) :
    (addToChart c st pos).length = c.length := by
  unfold addToChart
  split
  · rfl
  · split
    · rfl
    · exact List.length_set c pos _

theorem addToChart_oob {c : Chart} {st : State} {pos : Nat}
    (h : c.length ≤ pos) : addToChart c st pos = c := by
  simp [addToChart, h]

theorem addToChart_of_mem {c : Chart} {st : State} {pos : Nat}
    (h : st ∈ c.getD pos []) : addToChart c st pos = c := by
  unfold addToChart
  split
  · rfl
  · simp [h]

theorem col_addToChart (c : Chart) (st : State) (pos e : Nat) :
    (addToChart c st pos).getD e [] =
      if pos = e ∧ pos < c.length ∧ st ∉ c.getD pos [] then
        c.getD e [] ++ [st]
      else c.getD e [] := by
  unfold addToChart
  split
  · next hle =>
    rw [if_neg]
    rintro ⟨_, h2, _⟩
    omega
  · next hlt =>
    split
    · next hmem =>
      rw [if_neg]
      rintro ⟨_, _, h3⟩
      exact h3 hmem
    · next hmem =>
      rw [col_set]
      by_cases hpe : pos = e
      · subst hpe
        rw [if_pos ⟨rfl, Nat.lt_of_not_le hlt⟩,
          if_pos ⟨rfl, Nat.lt_of_not_le hlt, hmem⟩]
      · rw [if_neg (fun hh => hpe hh.1), if_neg (fun hh => hpe hh.1)]

theorem mem_addToChart {c : Chart} {st : State} {pos e : Nat} {x : State} :
    x ∈ (addToChart c st pos).getD e [] ↔
      x ∈ c.getD e [] ∨ (pos = e ∧ pos < c.length ∧ x = st) := by
  rw [col_addToChart]
  split
  · next h =>
    obtain ⟨h1, h2, h3⟩ := h
    subst h1
    constructor
    · intro hx
      rcases List.mem_append.mp hx with hx | hx
      · exact Or.inl hx
      · exact Or.inr ⟨rfl, h2, List.mem_singleton.mp hx⟩
    · rintro (hx | ⟨-, -, hx⟩)
      · exact List.mem_append.mpr (Or.inl hx)
      · exact List.mem_append.mpr (Or.inr (List.mem_singleton.mpr hx))
  · next h =>
    constructor
    · exact Or.inl
    · rintro (hx | ⟨h1, h2, h3⟩)
      · exact hx
      · subst h1
        subst h3
        by_cases hm : x ∈ c.getD pos []
        · exact hm
        · exact absurd ⟨rfl, h2, hm⟩ h

theorem addToChart_mem_self {c : Chart} {st : State} {pos : Nat}
    (h : pos < c.length) : st ∈ (addToChart c st pos).getD pos [] :=
  mem_addToChart.mpr (Or.inr ⟨rfl, h, rfl⟩)

theorem addToChart_prefix (c : Chart) (st : State) (pos e : Nat) :
    c.getD e [] <+: (addToChart c st pos).getD e [] := by
  rw [col_addToChart]
  split
  · exact ⟨[st], rfl⟩
  · exact List.prefix_refl _

/-! ## Chart growth -/

theorem Grows.refl (c : Chart) : Grows c c :=
  ⟨rfl, fun _ => List.prefix_refl _⟩

theorem Grows.trans {c1 c2 c3 : Chart} (h1 : Grows c1 c2)
    (h2 : Grows c2 c3) : Grows c1 c3 :=
  ⟨h1.1.trans h2.1, fun e => (h1.2 e).trans (h2.2 e)⟩

theorem addToChart_grows (c : Chart) (st : State) (pos : Nat) :
    Grows c (addToChart c st pos) :=
  ⟨(addToChart_length c st pos).symm, fun e => addToChart_prefix c st pos e⟩

theorem Grows.mem_col {c c' : Chart} (h : Grows c c') {e : Nat}
    {x : State} (hx : x ∈ c.getD e []) : x ∈ c'.getD e [] :=
  (h.2 e).subset hx

/-! ## Generic preservation through the engine's loops

Any chart property closed under `addToChart` is preserved by every
operation and by the whole chart construction. -/

theorem completeLoop_preserve {P : Chart → Prop}
    (hP : ∀ c s pos, P c → P (addToChart c s pos)) :
    ∀ (fuel : Nat) (st : State) (i : Nat) (c : Chart) (k : Nat)
      (c' : Chart), P c → completeLoop fuel st i c k = some c' → P c' := by
  intro fuel
  induction fuel with
  | zero => intro st i c k c' _ h; simp [completeLoop] at h
  | succ f ih =>
    intro st i c k c' hp h
    rw [completeLoop] at h
    split at h
    · next hk =>
      refine ih st i _ (k + 1) c' ?_ h
      split
      · exact hP _ _ _ hp
      · exact hp
    · next hk =>
      simp only [Option.some.injEq] at h
      exact h ▸ hp

theorem completeF_preserve {P : Chart → Prop}
    (hP : ∀ c s pos, P c → P (addToChart c s pos))
    {fuel : Nat} {c : Chart} {st : State} {i : Nat} {c' : Chart}
    (hp : P c) (h : completeF fuel c st i = some c') : P c' := by
  unfold completeF at h
  split at h
  · exact completeLoop_preserve hP fuel st i c 0 c' hp h
  · simp only [Option.some.injEq] at h
    exact h ▸ hp

theorem predictLoop_preserve {P : Chart → Prop}
    (hP : ∀ c s pos, P c → P (addToChart c s pos)) :
    ∀ (fuel : Nat) (sym : String) (i : Nat) (rs : List Rule) (c : Chart)
      (c' : Chart), P c → predictLoop fuel sym i rs c = some c' → P c' := by
  intro fuel sym i rs
  induction rs with
  | nil =>
    intro c c' hp h
    simp only [predictLoop, Option.some.injEq] at h
    exact h ▸ hp
  | cons r rs ih =>
    intro c c' hp h
    rw [predictLoop] at h
    split at h
    · have h1 : P (addToChart c ⟨r, 0, i, []⟩ i) := hP _ _ _ hp
      split at h
      · exact absurd h (by simp)
      · next c2 heq =>
        split at heq
        · exact ih c2 c' (completeF_preserve hP h1 heq) h
        · simp only [Option.some.injEq] at heq
          exact ih c2 c' (heq ▸ h1) h
    · exact ih c c' hp h

theorem predictF_preserve {P : Chart → Prop}
    (hP : ∀ c s pos, P c → P (addToChart c s pos))
    {fuel : Nat} {rules : List Rule} {c : Chart} {st : State} {i : Nat}
    {c' : Chart} (hp : P c) (h : predictF fuel rules c st i = some c') :
    P c' := by
  unfold predictF at h
  split at h
  · split at h
    · exact predictLoop_preserve hP fuel _ i rules c c' hp h
    · simp only [Option.some.injEq] at h
      exact h ▸ hp
  · simp only [Option.some.injEq] at h
    exact h ▸ hp

theorem scanF_preserve {P : Chart → Prop}
    (hP : ∀ c s pos, P c → P (addToChart c s pos))
    {words : List String} {c : Chart} {st : State} {i : Nat}
    (hp : P c) : P (scanF words c st i) := by
  unfold scanF
  split
  · split
    · split
      · exact hP _ _ _ hp
      · exact hp
    · exact hp
  · exact hp

theorem runColumns_preserve {P : Chart → Prop}
    (hP : ∀ c s pos, P c → P (addToChart c s pos)) :
    ∀ (fuel : Nat) (rules : List Rule) (words : List String) (c : Chart)
      (i j : Nat) (c' : Chart), P c →
      runColumns fuel rules words c i j = some c' → P c' := by
  intro fuel
  induction fuel with
  | zero => intro rules words c i j c' _ h; simp [runColumns] at h
  | succ f ih =>
    intro rules words c i j c' hp h
    rw [runColumns] at h
    split at h
    · split at h
      · next hj =>
        split at h
        · exact absurd h (by simp)
        · next c2 heq =>
          refine ih rules words c2 i (j + 1) c' ?_ h
          split at heq
          · split at heq
            · exact predictF_preserve hP hp heq
            · simp only [Option.some.injEq] at heq
              exact heq ▸ scanF_preserve hP hp
          · exact completeF_preserve hP hp heq
      · exact ih rules words c (i + 1) 0 c' hp h
    · simp only [Option.some.injEq] at h
      exact h ▸ hp

theorem buildChart_preserve {P : Chart → Prop}
    (hP : ∀ c s pos, P c → P (addToChart c s pos))
    {fuel : Nat} {rules : List Rule} {words : List String} {c' : Chart}
    (hp : P (List.replicate (words.length + 1) []))
    (h : buildChart fuel rules words = some c') : P c' := by
  unfold buildChart at h
  exact runColumns_preserve hP fuel rules words _ 0 0 c' (hP _ _ _ hp) h

/-! ## Growth instances -/

theorem completeLoop_grows {fuel : Nat} {st : State} {i : Nat} {c : Chart}
    {k : Nat} {c' : Chart} (h : completeLoop fuel st i c k = some c') :
    Grows c c' :=
  completeLoop_preserve (P := Grows c)
    (fun c2 s pos hg => hg.trans (addToChart_grows c2 s pos))
    fuel st i c k c' (Grows.refl c) h

theorem completeF_grows {fuel : Nat} {c : Chart} {st : State} {i : Nat}
    {c' : Chart} (h : completeF fuel c st i = some c') : Grows c c' :=
  completeF_preserve (P := Grows c)
    (fun c2 s pos hg => hg.trans (addToChart_grows c2 s pos))
    (Grows.refl c) h

theorem predictF_grows {fuel : Nat} {rules : List Rule} {c : Chart}
    {st : State} {i : Nat} {c' : Chart}
    (h : predictF fuel rules c st i = some c') : Grows c c' :=
  predictF_preserve (P := Grows c)
    (fun c2 s pos hg => hg.trans (addToChart_grows c2 s pos))
    (Grows.refl c) h

theorem scanF_grows (words : List String) (c : Chart) (st : State)
    (i : Nat) : Grows c (scanF words c st i) :=
  scanF_preserve (P := Grows c)
    (fun c2 s pos hg => hg.trans (addToChart_grows c2 s pos))
    (Grows.refl c)

/-! ## Duplicate-freedom -/

theorem addToChart_nodup {c : Chart} (st : State) (pos : Nat)
    (h : colsNodup c) : colsNodup (addToChart c st pos) := by
  intro e
  rw [col_addToChart]
  split
  · next hc =>
    obtain ⟨h1, h2, h3⟩ := hc
    subst h1
    rw [List.nodup_append]
    exact ⟨h pos, List.nodup_singleton st, by
      intro x hx hx1
      rw [List.mem_singleton] at hx1
      exact h3 (hx1 ▸ hx)⟩
  · exact h e

/-- Claim C3: no chart column ever holds two states that agree on all of
(rule, dot, start, backpointers).  `_add_to_chart` is a no-op on an
already-present state, it preserves duplicate-freedom of every column,
each of predict, scan and complete preserves it, and every chart built
by `parse` satisfies it. -/
theorem C3_chart_dedup :
    (∀ (c : Chart) (st : State) (pos : Nat),
      st ∈ c.getD pos [] → addToChart c st pos = c) ∧
    (∀ (c : Chart) (st : State) (pos : Nat),
      colsNodup c → colsNodup (addToChart c st pos)) ∧
    (∀ (fuel : Nat) (rules : List Rule) (c : Chart) (st : State) (i : Nat)
      (c' : Chart), colsNodup c → predictF fuel rules c st i = some c' →
      colsNodup c') ∧
    (∀ (words : List String) (c : Chart) (st : State) (i : Nat),
      colsNodup c → colsNodup (scanF words c st i)) ∧
    (∀ (fuel : Nat) (c : Chart) (st : State) (i : Nat) (c' : Chart),
      colsNodup c → completeF fuel c st i = some c' → colsNodup c') ∧
    (∀ (fuel : Nat) (rules : List Rule) (words : List String) (c : Chart),
      buildChart fuel rules words = some c → colsNodup c) := by
  refine ⟨fun c st pos h => addToChart_of_mem h,
    fun c st pos h => addToChart_nodup st pos h,
    fun fuel rules c st i c' h hrun =>
      predictF_preserve (fun c2 s p hp => addToChart_nodup s p hp) h hrun,
    fun words c st i h =>
      scanF_preserve (fun c2 s p hp => addToChart_nodup s p hp) h,
    fun fuel c st i c' h hrun =>
      completeF_preserve (fun c2 s p hp => addToChart_nodup s p hp) h hrun,
    fun fuel rules words c hrun =>
      buildChart_preserve (fun c2 s p hp => addToChart_nodup s p hp)
        ?_ hrun⟩
  intro e
  have : (List.replicate (words.length + 1) ([] : List State)).getD e [] =
      [] := by
    by_cases he : e < words.length + 1
    · simp [List.getD_eq_getElem?_getD, List.getElem?_replicate, he]
    · exact col_nil_of_le (by simpa using Nat.le_of_not_lt he)
  rw [this]
  exact List.nodup_nil

/-- Witness for C3: the chart built for the C6 grammar on input `x` has
duplicate-free columns. -/
theorem C3_chart_dedup_witness :
    colsNodup ((buildChart 50 c6rules ["x"]).getD []) :=
  C3_chart_dedup.2.2.2.2.2 50 c6rules ["x"] _ rfl

/-- Claim C10: `complete` on a state whose dot has not reached the end of
the body leaves the chart untouched (the guard returns before any
insertion is attempted). -/
theorem C10_incomplete_complete_noop (fuel : Nat) (c : Chart) (st : State)
    (i : Nat) (h : st.dot < st.rule.body.length) :
    completeF fuel c st i = some c := by
  unfold completeF
  rw [if_neg]
  simp only [State.isComplete, decide_eq_true_eq]
  omega

/-- Witness for C10: completing the incomplete state `S → • A` changes
nothing. -/
theorem C10_incomplete_complete_noop_witness :
    completeF 5 [[], []] ⟨⟨"S", ["A"]⟩, 0, 0, []⟩ 0 = some [[], []] :=
  C10_incomplete_complete_noop 5 [[], []] ⟨⟨"S", ["A"]⟩, 0, 0, []⟩ 0
    (by decide)

/-- Counterexample to C8 as stated: position `-1` is not a valid column
index, yet `_add_to_chart` is not a no-op there — Python's negative
indexing wraps around and the state is appended to the last column. -/
theorem C8_oob_counterexample :
    addToChartI [[]] epsAState (-1) = some [[epsAState]] ∧
      ([[epsAState]] : Chart) ≠ [[]] := by
  constructor
  · rfl
  · intro h
    cases h

/-- Claim C8 amended: the silent no-op holds exactly for the positions
past the end of the chart, `pos ≥ N + 1` (every such addition, whether
through the engine's natural-number entry point or through the
integer-indexed model, returns the chart unchanged and raises nothing);
negative positions instead wrap around (`-(N+1) ≤ pos < 0`) or raise
`IndexError` (`pos < -(N+1)`). -/
theorem C8_oob_noop :
    (∀ (c : Chart) (st : State) (pos : Nat),
      c.length ≤ pos → addToChart c st pos = c) ∧
    (∀ (c : Chart) (st : State) (pos : Int),
      (c.length : Int) ≤ pos → addToChartI c st pos = some c) := by
  refine ⟨fun c st pos h => addToChart_oob h, fun c st pos h => ?_⟩
  unfold addToChartI
  rw [if_pos h]

/-- Witness for C8 amended: adding at position 7 to a one-column chart
is a silent no-op. -/
theorem C8_oob_noop_witness :
    addToChart [[]] epsAState 7 = [[]] ∧
      addToChartI [[]] epsAState 7 = some [[]] :=
  ⟨C8_oob_noop.1 [[]] epsAState 7 (by decide),
    C8_oob_noop.2 [[]] epsAState 7 (by decide)⟩

/-- Claim C7: the acceptance result of `parse` does not depend on the
chart field left behind by an earlier call (the chart is rebuilt from
scratch), and repeating a call on the engine state a call returns
reproduces the very same result. -/
theorem C7_parse_deterministic :
    (∀ (fuel : Nat) (rules : List Rule) (c1 c2 : Chart)
      (words : List String),
      (parseRun fuel ⟨rules, c1⟩ words).map (fun x => x.2) =
        (parseRun fuel ⟨rules, c2⟩ words).map (fun x => x.2)) ∧
    (∀ (fuel : Nat) (p p1 : EarleyEngine) (words : List String) (b : Bool)
      (t : Option ParseTree), parseRun fuel p words = some (p1, b, t) →
      parseRun fuel p1 words = some (p1, b, t)) := by
  constructor
  · intro fuel rules c1 c2 words
    unfold parseRun
    rfl
  · intro fuel p p1 words b t h
    unfold parseRun at h ⊢
    cases hpf : parseFull fuel p.rules words with
    | none => rw [hpf] at h; cases h
    | some x =>
      obtain ⟨chart, b', t'⟩ := x
      rw [hpf] at h
      simp only [Option.some.injEq, Prod.mk.injEq] at h
      obtain ⟨h1, h2, h3⟩ := h
      subst h2
      subst h3
      have hr : p1.rules = p.rules := by rw [← h1]
      rw [hr, hpf, ← h1]

/-- Witness for C7: re-running `parse` on the engine state left by a
previous run returns the very same result. -/
theorem C7_parse_deterministic_witness :
    parseRun 5 ⟨[], [[⟨startRule, 0, 0, []⟩]]⟩ [] =
      some (⟨[], [[⟨startRule, 0, 0, []⟩]]⟩, false, none) :=
  C7_parse_deterministic.2 5 ⟨[], []⟩ ⟨[], [[⟨startRule, 0, 0, []⟩]]⟩ []
    false none rfl

/-- Claim C9 (the code's actual behaviour at the failing input): when no
complete state with matching head and start exists in the expected
column, `_build_tree` silently drops the child and returns the corrupted
tree `S()` instead of failing loudly. -/
theorem C9_silent_child_skip :
    buildTreeF 10 [[], []] ["x"] orphanState 1 =
      some (ParseTree.node "S" []) := rfl

/-- Claim C6: on the grammar `S → A x`, `A → ε`, the sentence `x` is
accepted and the returned tree is `S(A(), "x")` — the epsilon rule is
completed at prediction time and shows up as a childless `A` node. -/
theorem C6_epsilon_example :
    parseF 50 c6rules ["x"] = some (true, some c6tree) := rfl

/-! ## Span chains -/

theorem spanChain_append {p q : Nat} {l : List (Nat × Nat)}
    (h : spanChain p l = some q) (r : Nat) :
    spanChain p (l ++ [(q, r)]) = some r := by
  induction l generalizing p with
  | nil =>
    simp only [spanChain, Option.some.injEq] at h
    subst h
    simp [spanChain]
  | cons hd tl ih =>
    obtain ⟨a, b⟩ := hd
    simp only [spanChain, List.cons_append] at h ⊢
    split at h
    · rw [if_pos (by assumption)]
      exact ih h
    · cases h

theorem spanChain_le {p q : Nat} {l : List (Nat × Nat)}
    (h : spanChain p l = some q) (hm : ∀ bp ∈ l, bp.1 ≤ bp.2) :
    p ≤ q := by
  induction l generalizing p with
  | nil =>
    simp only [spanChain, Option.some.injEq] at h
    omega
  | cons hd tl ih =>
    obtain ⟨a, b⟩ := hd
    simp only [spanChain] at h
    split at h
    · next ha =>
      subst ha
      have h1 : a ≤ b := hm (a, b) (List.mem_cons_self _ _)
      have h2 : b ≤ q := ih h (fun bp hbp => hm bp (List.mem_cons_of_mem _ hbp))
      omega
    · cases h

theorem spanChain_getLast {p q : Nat} {l : List (Nat × Nat)}
    (h : spanChain p l = some q) (hne : l ≠ []) :
    ∃ a, l.getLast? = some (a, q) := by
  induction l generalizing p with
  | nil => exact absurd rfl hne
  | cons hd tl ih =>
    obtain ⟨a, b⟩ := hd
    simp only [spanChain] at h
    split at h
    · cases tl with
      | nil =>
        simp only [spanChain, Option.some.injEq] at h
        exact ⟨a, by rw [h]; rfl⟩
      | cons t ts =>
        obtain ⟨a2, hlast⟩ := ih h (by simp)
        exact ⟨a2, by rw [List.getLast?_cons_cons]; exact hlast⟩
    · cases h

/-! ## Preservation of the chart invariant -/

theorem bpProp_mono {c c' : Chart} (h : Grows c c') {words : List String}
    {sym : String} {a b : Nat} (hp : bpProp c words sym a b) :
    bpProp c' words sym a b := by
  unfold bpProp at hp ⊢
  by_cases hnt : isNT sym = true
  · rw [if_pos hnt] at hp ⊢
    obtain ⟨st2, hm, rest⟩ := hp
    exact ⟨st2, h.mem_col hm, rest⟩
  · rw [if_neg hnt] at hp ⊢
    exact hp

theorem ChartInv.add {rules : List Rule} {words : List String}
    {chart : Chart} {st : State} {pos : Nat}
    (inv : ChartInv rules words chart)
    (hnew : pos < chart.length → NewState rules words chart st pos) :
    ChartInv rules words (addToChart chart st pos) := by
  by_cases hlen : chart.length ≤ pos
  · rw [addToChart_oob hlen]
    exact inv
  have hpos : pos < chart.length := Nat.lt_of_not_le hlen
  have hnew := hnew hpos
  have hg := addToChart_grows chart st pos
  refine ⟨?_, ?_, ?_, ?_, ?_, ?_, ?_, ?_⟩
  · rw [addToChart_length]
    exact inv.size
  · exact addToChart_nodup st pos inv.nodup
  · intro e x hx
    rcases mem_addToChart.mp hx with hx | ⟨h1, h2, h3⟩
    · exact inv.ruleOK e x hx
    · exact h3 ▸ hnew.ruleOK
  · intro e x hx
    rcases mem_addToChart.mp hx with hx | ⟨h1, h2, h3⟩
    · exact inv.dotOK e x hx
    · exact h3 ▸ hnew.dotOK
  · intro e x hx
    rcases mem_addToChart.mp hx with hx | ⟨h1, h2, h3⟩
    · exact inv.lenOK e x hx
    · exact h3 ▸ hnew.lenOK
  · intro e x hx
    rcases mem_addToChart.mp hx with hx | ⟨h1, h2, h3⟩
    · exact inv.chainOK e x hx
    · subst h1
      exact h3 ▸ hnew.chainOK
  · intro e x hx
    rcases mem_addToChart.mp hx with hx | ⟨h1, h2, h3⟩
    · exact inv.monoOK e x hx
    · exact h3 ▸ hnew.monoOK
  · intro hγ e x hx j a b sym hbp hbody
    rcases mem_addToChart.mp hx with hx | ⟨h1, h2, h3⟩
    · exact bpProp_mono hg (inv.bpOK hγ e x hx j a b sym hbp hbody)
    · subst h3
      exact bpProp_mono hg (hnew.bpOK hγ j a b sym hbp hbody)

theorem getElem?_append_last {α : Type} {l : List α} {x : α} :
    (l ++ [x])[l.length]? = some x := by
  rw [List.getElem?_append_right (Nat.le_refl _)]
  simp

theorem getElem?_append_lt {α : Type} {l : List α} {x : α} {j : Nat}
    (h : j < l.length) : (l ++ [x])[j]? = l[j]? := by
  rw [List.getElem?_append, if_pos h]

/-- The insertion obligations for the state `advanceState s a i` built
by `complete` (and by `scan` with `a = i`, `i + 1` in place of `i`). -/
theorem advance_bpOK_old {rules : List Rule} {words : List String}
    {chart : Chart} {s : State} {e a2 i : Nat}
    (inv : ChartInv rules words chart) (hs : s ∈ chart.getD e [])
    (hγ : noGammaBodies rules = true) {j a b : Nat} {sym : String}
    (hbp : (s.backpointers ++ [(a2, i)])[j]? = some (a, b))
    (hbody : s.rule.body[j]? = some sym) (hj : j < s.backpointers.length) :
    bpProp chart words sym a b := by
  rw [getElem?_append_lt hj] at hbp
  exact inv.bpOK hγ e s hs j a b sym hbp hbody

theorem scanF_eq (words : List String) (chart : Chart) (st : State)
    (i : Nat) :
    scanF words chart st i = chart ∨
      ∃ (h : i < words.length) (sym : String), st.nextSymbol = some sym ∧
        sym ≠ "" ∧ sym = words.get ⟨i, h⟩ ∧
        scanF words chart st i =
          addToChart chart (advanceState st i (i + 1)) (i + 1) := by
  unfold scanF
  split
  · next hlt =>
    cases hns : st.nextSymbol with
    | none => exact Or.inl rfl
    | some sym =>
      dsimp only
      by_cases hc : sym ≠ "" ∧ sym = words.get ⟨i, hlt⟩
      · rw [if_pos hc]
        exact Or.inr ⟨hlt, sym, rfl, hc.1, hc.2, rfl⟩
      · rw [if_neg hc]
        exact Or.inl rfl
  · exact Or.inl rfl

theorem scanF_inv {rules : List Rule} {words : List String} {chart : Chart}
    {st : State} {i : Nat} (inv : ChartInv rules words chart)
    (hmem : st ∈ chart.getD i []) (hnt : nextIsNT st = false) :
    ChartInv rules words (scanF words chart st i) := by
  rcases scanF_eq words chart st i with heq | ⟨hlt, sym, hns, hne, hsym, heq⟩
  · rw [heq]
    exact inv
  rw [heq]
  refine inv.add (fun hpos => ?_)
  have hdot : st.dot < st.rule.body.length := by
    have := (List.getElem?_eq_some.mp hns).1
    exact this
  refine ⟨?_, hdot, ?_, ?_, ?_, ?_⟩
  · exact inv.ruleOK i st hmem
  · simp [advanceState, inv.lenOK i st hmem]
  · exact spanChain_append (inv.chainOK i st hmem) (i + 1)
  · intro bp hbp
    rcases List.mem_append.mp hbp with hbp | hbp
    · exact inv.monoOK i st hmem bp hbp
    · rw [List.mem_singleton] at hbp
      subst hbp
      exact Nat.le_succ i
  · intro hγ j a b sym2 hbp hbody
    simp only [advanceState] at hbp hbody
    have hlen := inv.lenOK i st hmem
    rcases Nat.lt_trichotomy j st.backpointers.length with hj | hj | hj
    · exact advance_bpOK_old inv hmem hγ hbp hbody hj
    · subst hj
      rw [getElem?_append_last] at hbp
      have hba : a = i ∧ b = i + 1 := by
        simp only [Option.some.injEq, Prod.mk.injEq] at hbp
        exact ⟨hbp.1.symm, hbp.2.symm⟩
      obtain ⟨ha, hb⟩ := hba
      subst ha
      subst hb
      rw [hlen] at hbody
      rw [show st.rule.body[st.dot]? = st.nextSymbol from rfl, hns] at hbody
      have hsym2 : sym2 = sym := by simpa using hbody.symm
      subst hsym2
      have hntf : isNT sym2 = false := by
        unfold nextIsNT at hnt
        rw [hns] at hnt
        exact hnt
      unfold bpProp
      rw [if_neg (by rw [hntf]; exact Bool.false_ne_true)]
      refine ⟨rfl, ?_⟩
      rw [List.getElem?_eq_getElem hlt]
      exact congrArg some (by rw [hsym]; rfl)
    · rw [List.getElem?_eq_none] at hbp
      · cases hbp
      · simp only [List.length_append, List.length_cons, List.length_nil]
        omega

theorem completeLoop_inv {rules : List Rule} {words : List String} :
    ∀ (fuel : Nat) (st : State) (i : Nat) (chart : Chart) (k : Nat)
      (c' : Chart), ChartInv rules words chart → st.isComplete = true →
      (st ∈ chart.getD i [] ∨ chart.length ≤ i) →
      completeLoop fuel st i chart k = some c' →
      ChartInv rules words c' := by
  intro fuel
  induction fuel with
  | zero => intro st i chart k c' _ _ _ h; simp [completeLoop] at h
  | succ f ih =>
    intro st i chart k c' inv hcomp hdisj h
    rw [completeLoop] at h
    split at h
    · next hk =>
      set s := (chart.getD st.start []).get ⟨k, hk⟩ with hs
      have hsmem : s ∈ chart.getD st.start [] := List.get_mem _ k hk
      by_cases hg : s.isComplete = false ∧ s.nextSymbol = some st.rule.head
      · rw [if_pos hg] at h
        have hinv2 : ChartInv rules words
            (addToChart chart (advanceState s st.start i) i) := by
          refine inv.add (fun hpos => ?_)
          have hstmem : st ∈ chart.getD i [] := by
            rcases hdisj with hd | hd
            · exact hd
            · omega
          have hdot : s.dot < s.rule.body.length := by
            have := (List.getElem?_eq_some.mp hg.2).1
            exact this
          refine ⟨?_, hdot, ?_, ?_, ?_, ?_⟩
          · exact inv.ruleOK st.start s hsmem
          · simp [advanceState, inv.lenOK st.start s hsmem]
          · exact spanChain_append (inv.chainOK st.start s hsmem) i
          · intro bp hbp
            rcases List.mem_append.mp hbp with hbp | hbp
            · exact inv.monoOK st.start s hsmem bp hbp
            · rw [List.mem_singleton] at hbp
              subst hbp
              exact spanChain_le (inv.chainOK i st hstmem)
                (inv.monoOK i st hstmem)
          · intro hγ j a b sym2 hbp hbody
            simp only [advanceState] at hbp hbody
            have hlen := inv.lenOK st.start s hsmem
            rcases Nat.lt_trichotomy j s.backpointers.length with
              hj | hj | hj
            · exact advance_bpOK_old inv hsmem hγ hbp hbody hj
            · subst hj
              rw [getElem?_append_last] at hbp
              have hba : a = st.start ∧ b = i := by
                simp only [Option.some.injEq, Prod.mk.injEq] at hbp
                exact ⟨hbp.1.symm, hbp.2.symm⟩
              obtain ⟨ha, hb⟩ := hba
              subst ha
              subst hb
              rw [hlen] at hbody
              have hsym : sym2 = st.rule.head := by
                have := hg.2
                unfold State.nextSymbol at this
                rw [hbody] at this
                simpa using this
              subst hsym
              unfold bpProp
              by_cases hnt : isNT st.rule.head = true
              · rw [if_pos hnt]
                exact ⟨st, hstmem, hcomp, rfl, rfl⟩
              · exfalso
                rcases inv.ruleOK b st hstmem with ⟨hr, _⟩ | ⟨hr, _⟩
                · have hγhead : st.rule.head = "γ" := by rw [hr]; rfl
                  rcases inv.ruleOK st.start s hsmem with ⟨hr2, _⟩ |
                    ⟨_, hr2⟩
                  · have hb2 : s.rule.body[s.dot]? = some st.rule.head :=
                      hbody
                    rw [hr2, hγhead] at hb2
                    have hb3 : (["S"] : List String)[s.dot]? = some "γ" :=
                      hb2
                    obtain ⟨hlt2, hEq⟩ := List.getElem?_eq_some.mp hb3
                    have hd0 : s.dot = 0 := by
                      simp only [List.length_cons, List.length_nil] at hlt2
                      omega
                    rw [hd0] at hb3
                    exact absurd hb3 (by decide)
                  · have hmem2 : st.rule.head ∈ s.rule.body := by
                      obtain ⟨hlt2, hEq⟩ := List.getElem?_eq_some.mp hbody
                      exact hEq ▸ List.getElem_mem hlt2
                    rw [hγhead] at hmem2
                    have hall := List.all_eq_true.mp hγ s.rule hr2
                    simp at hall
                    exact hall hmem2
                · exact hnt hr
            · rw [List.getElem?_eq_none] at hbp
              · cases hbp
              · simp only [List.length_append, List.length_cons,
                  List.length_nil]
                omega
        refine ih st i _ (k + 1) c' hinv2 hcomp ?_ h
        rcases hdisj with hd | hd
        · exact Or.inl ((addToChart_grows chart _ i).mem_col hd)
        · exact Or.inr (by rw [addToChart_length]; exact hd)
      · rw [if_neg hg] at h
        exact ih st i chart (k + 1) c' inv hcomp hdisj h
    · simp only [Option.some.injEq] at h
      exact h ▸ inv

theorem completeF_inv {rules : List Rule} {words : List String}
    {fuel : Nat} {chart : Chart} {st : State} {i : Nat} {c' : Chart}
    (inv : ChartInv rules words chart)
    (hdisj : st ∈ chart.getD i [] ∨ chart.length ≤ i)
    (h : completeF fuel chart st i = some c') :
    ChartInv rules words c' := by
  unfold completeF at h
  split at h
  · next hcomp =>
    exact completeLoop_inv fuel st i chart 0 c' inv hcomp hdisj h
  · simp only [Option.some.injEq] at h
    exact h ▸ inv

theorem predictLoop_inv {rules : List Rule} {words : List String}
    {fuel : Nat} {sym : String} {i : Nat} :
    ∀ (rs : List Rule) (chart : Chart) (c' : Chart),
      (∀ r ∈ rs, r ∈ rules) → isNT sym = true →
      ChartInv rules words chart →
      predictLoop fuel sym i rs chart = some c' →
      ChartInv rules words c' := by
  intro rs
  induction rs with
  | nil =>
    intro chart c' _ _ inv h
    simp only [predictLoop, Option.some.injEq] at h
    exact h ▸ inv
  | cons r rs ih =>
    intro chart c' hsub hnt inv h
    rw [predictLoop] at h
    split at h
    · next hhead =>
      have hinv1 : ChartInv rules words
          (addToChart chart ⟨r, 0, i, []⟩ i) := by
        refine inv.add (fun hpos => ?_)
        refine ⟨?_, by simp, rfl, rfl, by simp, ?_⟩
        · refine Or.inr ⟨?_, hsub r (List.mem_cons_self _ _)⟩
          show isNT (⟨r, 0, i, []⟩ : State).rule.head = true
          rw [show (⟨r, 0, i, []⟩ : State).rule.head = sym from hhead]
          exact hnt
        · intro _ j a b sym2 hbp _
          simp at hbp
      split at h
      · exact absurd h (by simp)
      · next c2 heq =>
        refine ih c2 c' (fun r2 hr2 => hsub r2 (List.mem_cons_of_mem _ hr2))
          hnt ?_ h
        split at heq
        · refine completeF_inv hinv1 ?_ heq
          by_cases hpos : i < chart.length
          · exact Or.inl (addToChart_mem_self hpos)
          · refine Or.inr ?_
            rw [addToChart_length]
            omega
        · simp only [Option.some.injEq] at heq
          exact heq ▸ hinv1
    · exact ih chart c' (fun r2 hr2 => hsub r2 (List.mem_cons_of_mem _ hr2))
        hnt inv h

theorem predictF_inv {rules : List Rule} {words : List String}
    {fuel : Nat} {chart : Chart} {st : State} {i : Nat} {c' : Chart}
    (inv : ChartInv rules words chart)
    (h : predictF fuel rules chart st i = some c') :
    ChartInv rules words c' := by
  unfold predictF at h
  split at h
  · split at h
    · next hnt =>
      exact predictLoop_inv rules chart c' (fun r hr => hr) hnt inv h
    · simp only [Option.some.injEq] at h
      exact h ▸ inv
  · simp only [Option.some.injEq] at h
    exact h ▸ inv

theorem runColumns_inv {rules : List Rule} {words : List String} :
    ∀ (fuel : Nat) (chart : Chart) (i j : Nat) (c' : Chart),
      ChartInv rules words chart →
      runColumns fuel rules words chart i j = some c' →
      ChartInv rules words c' := by
  intro fuel
  induction fuel with
  | zero => intro chart i j c' _ h; simp [runColumns] at h
  | succ f ih =>
    intro chart i j c' inv h
    rw [runColumns] at h
    split at h
    · split at h
      · next hj =>
        have hmem : (chart.getD i []).get ⟨j, hj⟩ ∈ chart.getD i [] :=
          List.get_mem _ j hj
        split at h
        · exact absurd h (by simp)
        · next c2 heq =>
          refine ih c2 i (j + 1) c' ?_ h
          split at heq
          · next hic =>
            split at heq
            · exact predictF_inv inv heq
            · next hntf =>
              simp only [Option.some.injEq] at heq
              refine heq ▸ scanF_inv inv hmem ?_
              exact Bool.not_eq_true _ ▸ hntf
          · next hic =>
            refine completeF_inv inv (Or.inl hmem) heq
      · exact ih chart (i + 1) 0 c' inv h
    · simp only [Option.some.injEq] at h
      exact h ▸ inv

theorem col_replicate (n e : Nat) :
    (List.replicate n ([] : List State)).getD e [] = [] := by
  by_cases he : e < n
  · simp [List.getD_eq_getElem?_getD, List.getElem?_replicate, he]
  · exact col_nil_of_le (by simpa using Nat.le_of_not_lt he)

theorem buildChart_inv {fuel : Nat} {rules : List Rule}
    {words : List String} {c' : Chart}
    (h : buildChart fuel rules words = some c') :
    ChartInv rules words c' := by
  unfold buildChart at h
  have hinv0 : ChartInv rules words
      (List.replicate (words.length + 1) []) := by
    refine ⟨by simp, ?_, ?_, ?_, ?_, ?_, ?_, ?_⟩ <;>
      first
        | (intro e; rw [col_replicate]; exact List.nodup_nil)
        | (intro e x hx; rw [col_replicate] at hx; cases hx)
        | (intro hγ e x hx; rw [col_replicate] at hx; cases hx)
  have hinv1 : ChartInv rules words
      (addToChart (List.replicate (words.length + 1) [])
        ⟨startRule, 0, 0, []⟩ 0) := by
    refine hinv0.add (fun hpos => ?_)
    refine ⟨Or.inl ⟨rfl, rfl⟩, by simp [startRule], rfl, rfl, by simp, ?_⟩
    intro _ j a b sym2 hbp _
    simp at hbp
  exact runColumns_inv fuel _ 0 0 c' hinv1 h

/-! ## Claims C4 and C1 -/

theorem ChartInv.spanOK {rules : List Rule} {words : List String}
    {chart : Chart} (inv : ChartInv rules words chart) :
    chartSpanOK chart := by
  intro e st hm
  refine ⟨inv.lenOK e st hm, ?_, ?_⟩
  · intro hd0
    have hnil : st.backpointers = [] := by
      have := inv.lenOK e st hm
      rw [hd0] at this
      exact List.length_eq_zero.mp this
    have := inv.chainOK e st hm
    rw [hnil] at this
    simpa [spanChain] using this
  · intro hdpos
    have hne : st.backpointers ≠ [] := by
      intro hnil
      have := inv.lenOK e st hm
      rw [hnil] at this
      simp at this
      omega
    obtain ⟨a, ha⟩ := spanChain_getLast (inv.chainOK e st hm) hne
    exact ⟨a, ha⟩

/-- Claim C4: every state stored in any chart column `end` has exactly
`dot` backpointers; a dot-0 state starts at its own column; otherwise
the last backpointer span ends at the column.  This holds of every
chart `parse` builds, and is preserved by every predict, scan and
complete insertion performed on an invariant-satisfying chart. -/
theorem C4_state_span_invariant :
    (∀ (fuel : Nat) (rules : List Rule) (words : List String) (chart : Chart),
      buildChart fuel rules words = some chart → chartSpanOK chart) ∧
    (∀ (fuel : Nat) (rules : List Rule) (words : List String) (chart : Chart)
      (st : State) (i : Nat) (c' : Chart), ChartInv rules words chart →
      predictF fuel rules chart st i = some c' → chartSpanOK c') ∧
    (∀ (rules : List Rule) (words : List String) (chart : Chart) (st : State)
      (i : Nat), ChartInv rules words chart → st ∈ chart.getD i [] →
      nextIsNT st = false → chartSpanOK (scanF words chart st i)) ∧
    (∀ (fuel : Nat) (rules : List Rule) (words : List String) (chart : Chart)
      (st : State) (i : Nat) (c' : Chart), ChartInv rules words chart →
      (st ∈ chart.getD i [] ∨ chart.length ≤ i) →
      completeF fuel chart st i = some c' → chartSpanOK c') := by
  refine ⟨?_, ?_, ?_, ?_⟩
  · intro fuel rules words chart h
    exact (buildChart_inv h).spanOK
  · intro fuel rules words chart st i c' inv h
    exact (predictF_inv inv h).spanOK
  · intro rules words chart st i inv hm hnt
    exact (scanF_inv inv hm hnt).spanOK
  · intro fuel rules words chart st i c' inv hdisj h
    exact (completeF_inv inv hdisj h).spanOK

/-- Witness for C4: the span invariant holds of the chart built for the
C6 grammar on input `x`. -/
theorem C4_state_span_invariant_witness :
    chartSpanOK ((buildChart 50 c6rules ["x"]).getD []) :=
  C4_state_span_invariant.1 50 c6rules ["x"] _ rfl

theorem gammaPred_iff {st : State} :
    gammaPred st = true ↔
      st.rule.head = "γ" ∧ st.isComplete = true ∧ st.start = 0 := by
  unfold gammaPred
  simp [Bool.and_eq_true, beq_iff_eq, and_assoc]

theorem sPred_iff {st : State} :
    sPred st = true ↔
      st.isComplete = true ∧ st.rule.head = "S" ∧ st.start = 0 ∧
        0 < st.backpointers.length := by
  unfold sPred
  simp [Bool.and_eq_true, beq_iff_eq, and_assoc]

/-- Any chart state whose rule head is the reserved `γ` is the
augmented start state family: its rule is the augmented start rule and
its origin is 0. -/
theorem gamma_state_shape {rules : List Rule} {words : List String}
    {chart : Chart} (inv : ChartInv rules words chart) {e : Nat}
    {st : State} (hm : st ∈ chart.getD e [])
    (hhead : st.rule.head = "γ") : st.rule = startRule ∧ st.start = 0 := by
  rcases inv.ruleOK e st hm with h | ⟨hnt, _⟩
  · exact h
  · rw [hhead] at hnt
    exact absurd hnt (by decide)

/-- Claim C1: `parse` accepts exactly when the last column of the built
chart holds a complete state for the augmented start rule with
start 0; on acceptance the tree slot is produced from the first
complete `S` state of that column with start 0 and a nonempty
backpointer list (`sPred`, searched in chart-insertion order), and is
empty when no such state exists; on rejection there is no tree. -/
theorem C1_parse_acceptance (fuel : Nat) (rules : List Rule)
    (words : List String) (b : Bool) (t : Option ParseTree)
    (h : parseF fuel rules words = some (b, t)) :
    ∃ chart, buildChart fuel rules words = some chart ∧
      (b = true ↔ ∃ st ∈ chart.getD words.length [],
        st.rule = startRule ∧ st.isComplete = true ∧ st.start = 0) ∧
      (b = true →
        (match (chart.getD words.length []).find? sPred with
          | none => t = none
          | some sst => t = buildTreeF fuel chart words sst words.length)) ∧
      (b = false → t = none) := by
  unfold parseF parseFull at h
  cases hbc : buildChart fuel rules words with
  | none => rw [hbc] at h; cases h
  | some chart =>
    rw [hbc] at h
    dsimp only at h
    have inv := buildChart_inv hbc
    refine ⟨chart, rfl, ?_⟩
    cases hγf : (chart.getD words.length []).find? gammaPred with
    | none =>
      rw [hγf] at h
      simp only [Option.map_some', Option.some.injEq, Prod.mk.injEq] at h
      obtain ⟨hb, ht⟩ := h
      subst hb
      subst ht
      refine ⟨?_, ?_, ?_⟩
      · constructor
        · intro hh
          cases hh
        · rintro ⟨st, hm, hrule, hcomp, hstart⟩
          have := List.find?_eq_none.mp hγf st hm
          exact absurd (gammaPred_iff.mpr
            ⟨by rw [hrule]; rfl, hcomp, hstart⟩) this
      · intro hh
        cases hh
      · intro _
        rfl
    | some g =>
      rw [hγf] at h
      have hgmem := List.mem_of_find?_eq_some hγf
      have hgp := gammaPred_iff.mp (List.find?_some hγf)
      have hγshape := gamma_state_shape inv hgmem hgp.1
      have hex : ∃ st ∈ chart.getD words.length [],
          st.rule = startRule ∧ st.isComplete = true ∧ st.start = 0 :=
        ⟨g, hgmem, hγshape.1, hgp.2.1, hγshape.2⟩
      cases hsf : (chart.getD words.length []).find? sPred with
      | none =>
        rw [hsf] at h
        simp only [Option.map_some', Option.some.injEq, Prod.mk.injEq] at h
        obtain ⟨hb, ht⟩ := h
        subst hb
        subst ht
        refine ⟨⟨fun _ => hex, fun _ => rfl⟩, ?_, ?_⟩
        · intro _
          split
          · rfl
          · next sst hsf2 =>
            exact absurd hsf2 (by simp)
        · intro hh
          cases hh
      | some sst =>
        rw [hsf] at h
        dsimp only at h
        cases hbt : buildTreeF fuel chart words sst words.length with
        | none => rw [hbt] at h; cases h
        | some tree =>
          rw [hbt] at h
          simp only [Option.map_some', Option.some.injEq,
            Prod.mk.injEq] at h
          obtain ⟨hb, ht⟩ := h
          subst hb
          subst ht
          refine ⟨⟨fun _ => hex, fun _ => rfl⟩, ?_, ?_⟩
          · intro _
            split
            · next hsf2 =>
              exact absurd hsf2 (by simp)
            · next sst2 hsf2 =>
              injection hsf2 with hsst
              subst hsst
              exact hbt.symm
          · intro hh
            cases hh

/-! ## Claim C5: the behaviour of `complete` -/

theorem addToChart_col_ne {c : Chart} {st : State} {pos j : Nat}
    (h : j ≠ pos) : (addToChart c st pos).getD j [] = c.getD j [] := by
  rw [col_addToChart, if_neg]
  rintro ⟨h1, -, -⟩
  exact h h1.symm

theorem prefix_getElem? {α : Type} {l l' : List α} (h : l <+: l')
    {k : Nat} (hk : k < l.length) : l'[k]? = l[k]? := by
  obtain ⟨t, rfl⟩ := h
  rw [List.getElem?_append, if_pos hk]

/-- Frame property of the `complete` loop: only column `i` changes. -/
theorem completeLoop_frame :
    ∀ (fuel : Nat) (st : State) (i : Nat) (c : Chart) (k : Nat)
      (c' : Chart), completeLoop fuel st i c k = some c' →
      ∀ j, j ≠ i → c'.getD j [] = c.getD j [] := by
  intro fuel
  induction fuel with
  | zero => intro st i c k c' h; simp [completeLoop] at h
  | succ f ih =>
    intro st i c k c' h j hj
    rw [completeLoop] at h
    split at h
    · next hk =>
      rw [ih st i _ (k + 1) c' h j hj]
      split
      · exact addToChart_col_ne hj
      · rfl
    · simp only [Option.some.injEq] at h
      rw [h]

/-- Soundness of the `complete` loop: everything in column `i` after the
call was there before, or is the advance of some incomplete state of the
final column `state.start` waiting on the completed head. -/
theorem completeLoop_sound :
    ∀ (fuel : Nat) (st : State) (i : Nat) (c : Chart) (k : Nat)
      (c' : Chart), completeLoop fuel st i c k = some c' →
      ∀ x, x ∈ c'.getD i [] → x ∈ c.getD i [] ∨
        ∃ s, s ∈ c'.getD st.start [] ∧ s.isComplete = false ∧
          s.nextSymbol = some st.rule.head ∧
          x = advanceState s st.start i := by
  intro fuel
  induction fuel with
  | zero => intro st i c k c' h; simp [completeLoop] at h
  | succ f ih =>
    intro st i c k c' h x hx
    rw [completeLoop] at h
    split at h
    · next hk =>
      have hg2 := completeLoop_grows h
      rcases ih st i _ (k + 1) c' h x hx with hx2 | hx2
      · revert hx2
        split
        · next hguard =>
          intro hx2
          rw [if_pos hguard] at hg2
          rcases mem_addToChart.mp hx2 with hx3 | ⟨-, -, hx3⟩
          · exact Or.inl hx3
          · refine Or.inr ⟨_, ?_, hguard.1, hguard.2, hx3⟩
            have hsm : ((c.getD st.start []).get ⟨k, hk⟩) ∈
                c.getD st.start [] := List.get_mem _ k hk
            exact ((addToChart_grows c _ i).trans hg2).mem_col hsm
        · intro hx2
          exact Or.inl hx2
      · exact Or.inr hx2
    · simp only [Option.some.injEq] at h
      subst h
      exact Or.inl hx

/-- Completeness of the `complete` loop: when the loop terminates
normally, every incomplete waiting state of the final column
`state.start` (at index `k` or beyond) has its advance present in
column `i`. -/
theorem completeLoop_closure :
    ∀ (fuel : Nat) (st : State) (i : Nat) (c : Chart) (k : Nat)
      (c' : Chart), completeLoop fuel st i c k = some c' →
      i < c.length →
      ∀ m, k ≤ m → ∀ (hm : m < (c'.getD st.start []).length),
        ((c'.getD st.start []).get ⟨m, hm⟩).isComplete = false →
        ((c'.getD st.start []).get ⟨m, hm⟩).nextSymbol =
          some st.rule.head →
        advanceState ((c'.getD st.start []).get ⟨m, hm⟩) st.start i ∈
          c'.getD i [] := by
  intro fuel
  induction fuel with
  | zero => intro st i c k c' h; simp [completeLoop] at h
  | succ f ih =>
    intro st i c k c' h hlen m hkm hm hinc hwait
    rw [completeLoop] at h
    split at h
    · next hk =>
      by_cases hmk : m = k
      · subst hmk
        have hg2 := completeLoop_grows h
        have hg1 : Grows c (if ((c.getD st.start []).get ⟨m, hk⟩).isComplete
              = false ∧ ((c.getD st.start []).get ⟨m, hk⟩).nextSymbol =
                some st.rule.head then
              addToChart c
                (advanceState ((c.getD st.start []).get ⟨m, hk⟩) st.start i) i
            else c) := by
          split
          · exact addToChart_grows c _ i
          · exact Grows.refl c
        have hsame : (c'.getD st.start []).get ⟨m, hm⟩ =
            (c.getD st.start []).get ⟨m, hk⟩ := by
          have hpre : c.getD st.start [] <+: c'.getD st.start [] :=
            (hg1.trans hg2).2 st.start
          have h1 : (c'.getD st.start [])[m]? =
              (c.getD st.start [])[m]? := prefix_getElem? hpre hk
          rw [List.getElem?_eq_getElem hm, List.getElem?_eq_getElem hk]
            at h1
          simpa using h1
        rw [hsame] at hinc hwait ⊢
        have hguard : ((c.getD st.start []).get ⟨m, hk⟩).isComplete =
            false ∧ ((c.getD st.start []).get ⟨m, hk⟩).nextSymbol =
            some st.rule.head := ⟨hinc, hwait⟩
        rw [if_pos hguard] at h hg2
        refine hg2.mem_col (addToChart_mem_self hlen)
      · refine ih st i _ (k + 1) c' h ?_ m (by omega) hm hinc hwait
        split
        · rw [addToChart_length]
          exact hlen
        · exact hlen
    · next hk =>
      simp only [Option.some.injEq] at h
      subst h
      have := hm
      omega

/-- Witness for C1 at a concrete run: the empty grammar rejects the
empty sentence, and the characterization theorem applies there. -/
theorem C1_parse_acceptance_witness :
    ∃ chart, buildChart 5 [] [] = some chart ∧
      (false = true ↔ ∃ st ∈ chart.getD 0 [],
        st.rule = startRule ∧ st.isComplete = true ∧ st.start = 0) ∧
      (false = true →
        (match (chart.getD 0 []).find? sPred with
          | none => (none : Option ParseTree) = none
          | some sst => none = buildTreeF 5 chart [] sst 0)) ∧
      (false = false → (none : Option ParseTree) = none) :=
  C1_parse_acceptance 5 [] [] false none rfl

/-- Counterexample to C5 as stated: completing the epsilon state
`A → •` at `i = 0` against a column holding `X → • A A` also advances
the state `X → A • A` that the loop itself just inserted — the result
is not "exactly one advance per state of column `state.start` as it
stood on entry" (`completeBySpec`), because Python's `for` loop keeps
iterating over the growing column when `i = state.start`. -/
theorem C5_complete_counterexample :
    completeF 10 selfFeedChart epsAState 0 =
      some [[⟨⟨"X", ["A", "A"]⟩, 0, 0, []⟩,
        ⟨⟨"X", ["A", "A"]⟩, 1, 0, [(0, 0)]⟩,
        ⟨⟨"X", ["A", "A"]⟩, 2, 0, [(0, 0), (0, 0)]⟩]] ∧
    completeBySpec selfFeedChart epsAState 0 =
      [[⟨⟨"X", ["A", "A"]⟩, 0, 0, []⟩,
        ⟨⟨"X", ["A", "A"]⟩, 1, 0, [(0, 0)]⟩]] ∧
    completeF 10 selfFeedChart epsAState 0 ≠
      some (completeBySpec selfFeedChart epsAState 0) := by
  refine ⟨rfl, rfl, fun h => ?_⟩
  have h2 : ([[⟨⟨"X", ["A", "A"]⟩, 0, 0, []⟩,
      ⟨⟨"X", ["A", "A"]⟩, 1, 0, [(0, 0)]⟩,
      ⟨⟨"X", ["A", "A"]⟩, 2, 0, [(0, 0), (0, 0)]⟩]] : Chart) =
      [[⟨⟨"X", ["A", "A"]⟩, 0, 0, []⟩,
        ⟨⟨"X", ["A", "A"]⟩, 1, 0, [(0, 0)]⟩]] := by
    have h3 : completeF 10 selfFeedChart epsAState 0 =
        some [[⟨⟨"X", ["A", "A"]⟩, 0, 0, []⟩,
          ⟨⟨"X", ["A", "A"]⟩, 1, 0, [(0, 0)]⟩]] := h
    have h4 : completeF 10 selfFeedChart epsAState 0 =
        some [[⟨⟨"X", ["A", "A"]⟩, 0, 0, []⟩,
          ⟨⟨"X", ["A", "A"]⟩, 1, 0, [(0, 0)]⟩,
          ⟨⟨"X", ["A", "A"]⟩, 2, 0, [(0, 0), (0, 0)]⟩]] := rfl
    rw [h4] at h3
    exact Option.some.inj h3
  exact absurd h2 (by decide)

/-- Claim C5 amended: for a complete `state`, `complete(state, i)`
reads only column `state.start` and writes only column `i`.  Every
state newly present in column `i` is the advance (dot+1, backpointers
extended with `(state.start, i)`) of an incomplete state of the
**final** column `state.start` whose next symbol equals the completed
head, and conversely every such waiting state of the final column has
its advance in column `i` (when `i` is a real column index).  When
`i = state.start` the column being read grows while the loop runs, so
the closure is over the final column, not the column as it stood on
entry. -/
theorem C5_complete_characterization (fuel : Nat) (chart : Chart)
    (st : State) (i : Nat) (c' : Chart) (hcomp : st.isComplete = true)
    (h : completeF fuel chart st i = some c') :
    (∀ j, j ≠ i → c'.getD j [] = chart.getD j []) ∧
    (∀ x, x ∈ c'.getD i [] → x ∈ chart.getD i [] ∨
      ∃ s, s ∈ c'.getD st.start [] ∧ s.isComplete = false ∧
        s.nextSymbol = some st.rule.head ∧
        x = advanceState s st.start i) ∧
    (i < chart.length →
      ∀ s, s ∈ c'.getD st.start [] → s.isComplete = false →
        s.nextSymbol = some st.rule.head →
        advanceState s st.start i ∈ c'.getD i []) := by
  unfold completeF at h
  rw [if_pos hcomp] at h
  refine ⟨completeLoop_frame fuel st i chart 0 c' h,
    completeLoop_sound fuel st i chart 0 c' h, ?_⟩
  intro hlen s hs hinc hwait
  obtain ⟨⟨m, hm⟩, hget⟩ := List.mem_iff_get.mp hs
  subst hget
  exact completeLoop_closure fuel st i chart 0 c' h hlen m
    (Nat.zero_le m) hm hinc hwait

/-- Witness for C5 amended: at the self-feeding input the
characterization applies; the waiting state `X → • A A` of the final
column has its advance present in column 0. -/
theorem C5_complete_characterization_witness :
    advanceState ⟨⟨"X", ["A", "A"]⟩, 0, 0, []⟩ 0 0 ∈
      (([[⟨⟨"X", ["A", "A"]⟩, 0, 0, []⟩,
        ⟨⟨"X", ["A", "A"]⟩, 1, 0, [(0, 0)]⟩,
        ⟨⟨"X", ["A", "A"]⟩, 2, 0, [(0, 0), (0, 0)]⟩]] : Chart)).getD
        0 [] :=
  (C5_complete_characterization 10 selfFeedChart epsAState 0 _ rfl
    rfl).2.2 (by decide) ⟨⟨"X", ["A", "A"]⟩, 0, 0, []⟩ (by decide)
    (by decide) rfl

/-! ## Claim C2: the leaf round-trip -/

theorem leaves_node (sym : String) (cs : List ParseTree) :
    (ParseTree.node sym cs).leaves =
      if cs.isEmpty then (if isNT sym then [] else [sym])
      else (cs.map ParseTree.leaves).flatten := by
  rw [ParseTree.leaves]
  congr 1
  exact congrArg List.flatten (List.attach_map_val cs ParseTree.leaves)

/-- Counterexample to C2 as stated: the grammar `S → ε`, `S → γ x`
collides with the reserved start symbol `γ`.  On the sentence `x` the
engine accepts and returns the tree `S("x", "x")` — the completed
`γ → S •` state advances `S → • γ x` over the *symbol* `γ` with a
zero-width span, and `_build_tree`'s terminal branch then copies
`words[0]` for it — so the leaves read `x x`, not `x`. -/
theorem C2_leaf_roundtrip_counterexample :
    parseF 60 gammaRules ["x"] = some (true, some (ParseTree.node "S"
      [ParseTree.node "x" [], ParseTree.node "x" []])) ∧
    (ParseTree.node "S"
      [ParseTree.node "x" [], ParseTree.node "x" []]).leaves ≠ ["x"] := by
  refine ⟨rfl, ?_⟩
  have hx : (ParseTree.node "x" ([] : List ParseTree)).leaves = ["x"] := by
    rw [leaves_node]
    rw [if_pos (by decide : ([] : List ParseTree).isEmpty = true),
      if_neg (by decide : ¬isNT "x" = true)]
  rw [leaves_node, if_neg (by decide)]
  rw [List.map_cons, List.map_cons, List.map_nil, hx]
  intro hcontra
  simp only [List.flatten] at hcontra
  exact absurd hcontra (by decide)

theorem buildTreeF_zero (chart : Chart) (words : List String)
    (st : State) (pos : Nat) : buildTreeF 0 chart words st pos = none :=
  rfl

theorem buildTreeF_succ (fuel : Nat) (chart : Chart)
    (words : List String) (st : State) (pos : Nat) :
    buildTreeF (fuel + 1) chart words st pos =
      if st.rule.body.isEmpty then some (ParseTree.node st.rule.head [])
      else
        match childrenGo (fun s2 e => buildTreeF fuel chart words s2 e)
            chart words st.rule.body st.backpointers with
        | none => none
        | some cs => some (ParseTree.node st.rule.head cs) := rfl

theorem take_drop_concat {α : Type} (l : List α) {p b q : Nat}
    (hpb : p ≤ b) (hbq : b ≤ q) :
    (l.drop p).take (b - p) ++ (l.drop b).take (q - b) =
      (l.drop p).take (q - p) := by
  have hq : q - p = (b - p) + (q - b) := by omega
  have h2 : (l.drop p).drop (b - p) = l.drop b := by
    rw [List.drop_drop]
    congr 1
    omega
  rw [hq, List.take_add, h2]

/-- Correctness of the child loop of `_build_tree` on an invariant
chart: given that the recursive call is correct on complete chart
states, the children collected over a body whose backpointers chain
from `p` to `q` yield, in order, exactly `words[p..q)` — and no child
is skipped. -/
theorem childrenGo_leaves {rules : List Rule} {words : List String}
    {chart : Chart} (_inv : ChartInv rules words chart)
    (recur : State → Nat → Option ParseTree)
    (hrec : ∀ s2 e t2, s2 ∈ chart.getD e [] → s2.isComplete = true →
      recur s2 e = some t2 →
      ParseTree.leaves t2 = (words.drop s2.start).take (e - s2.start)) :
    ∀ (syms : List String) (bps : List (Nat × Nat)) (p q : Nat)
      (cs : List ParseTree),
      spanChain p bps = some q →
      syms.length = bps.length →
      (∀ (j a b : Nat) (sym : String), syms[j]? = some sym →
        bps[j]? = some (a, b) → bpProp chart words sym a b ∧ a ≤ b) →
      childrenGo recur chart words syms bps = some cs →
      cs.length = syms.length ∧
        (cs.map ParseTree.leaves).flatten =
          (words.drop p).take (q - p) := by
  intro syms
  induction syms with
  | nil =>
    intro bps p q cs hchain hlen hidx h
    have hbps : bps = [] := by
      have h0 : bps.length = 0 := by simpa using hlen.symm
      exact List.length_eq_zero.mp h0
    subst hbps
    simp only [spanChain, Option.some.injEq] at hchain
    subst hchain
    simp only [childrenGo, Option.some.injEq] at h
    subst h
    simp
  | cons sym syms' ihs =>
    intro bps p q cs hchain hlen hidx h
    cases bps with
    | nil => simp at hlen
    | cons ab bps' =>
      obtain ⟨a, b⟩ := ab
      simp only [spanChain] at hchain
      split at hchain
      · next ha =>
        subst ha
        obtain ⟨hbp0, hab⟩ := hidx 0 a b sym (by simp) (by simp)
        have hidx' : ∀ (j a2 b2 : Nat) (sym2 : String),
            syms'[j]? = some sym2 → bps'[j]? = some (a2, b2) →
            bpProp chart words sym2 a2 b2 ∧ a2 ≤ b2 := by
          intro j a2 b2 sym2 h1 h2
          exact hidx (j + 1) a2 b2 sym2 (by simpa using h1)
            (by simpa using h2)
        have hmono' : ∀ bp ∈ bps', bp.1 ≤ bp.2 := by
          intro bp hbp
          rw [List.mem_iff_getElem?] at hbp
          obtain ⟨j, hj⟩ := hbp
          have hjlt : j < bps'.length := (List.getElem?_eq_some.mp hj).1
          have hjlt2 : j < syms'.length := by
            simp only [List.length_cons] at hlen
            omega
          obtain ⟨bp1, bp2⟩ := bp
          exact (hidx' j bp1 bp2 (syms'.get ⟨j, hjlt2⟩)
            (List.getElem?_eq_getElem hjlt2) hj).2
        have hbq : b ≤ q := spanChain_le hchain hmono'
        simp only [childrenGo] at h
        by_cases hnt : isNT sym = true
        · rw [if_pos hnt] at h
          rw [bpProp, if_pos hnt] at hbp0
          obtain ⟨st2, hm2, hc2, hh2, hs2⟩ := hbp0
          cases hfind : (chart.getD b []).find?
              (fun s => s.isComplete && s.rule.head == sym &&
                s.start == a) with
          | none =>
            exfalso
            have := List.find?_eq_none.mp hfind st2 hm2
            exact this (by simp [hc2, hh2, hs2])
          | some s2 =>
            rw [hfind] at h
            dsimp only at h
            have hps2 := List.find?_some hfind
            simp only [Bool.and_eq_true, beq_iff_eq] at hps2
            obtain ⟨⟨hs2c, hs2h⟩, hs2s⟩ := hps2
            have hs2m := List.mem_of_find?_eq_some hfind
            cases hrec2 : recur s2 b with
            | none => rw [hrec2] at h; simp at h
            | some t2 =>
              rw [hrec2] at h
              dsimp only at h
              cases hcg : childrenGo recur chart words syms' bps' with
              | none => rw [hcg] at h; simp at h
              | some rest =>
                rw [hcg] at h
                simp only [Option.some.injEq] at h
                subst h
                obtain ⟨hlen2, hflat⟩ := ihs bps' b q rest hchain
                  (by simpa using hlen) hidx' hcg
                have ht2 := hrec s2 b t2 hs2m hs2c hrec2
                rw [hs2s] at ht2
                constructor
                · simp [hlen2]
                · rw [List.map_cons, List.flatten_cons, ht2, hflat]
                  exact take_drop_concat words hab hbq
        · rw [if_neg hnt] at h
          rw [bpProp, if_neg hnt] at hbp0
          obtain ⟨hb1, hw⟩ := hbp0
          rw [hw] at h
          dsimp only at h
          cases hcg : childrenGo recur chart words syms' bps' with
          | none => rw [hcg] at h; simp at h
          | some rest =>
            rw [hcg] at h
            simp only [Option.some.injEq] at h
            subst h
            obtain ⟨hlen2, hflat⟩ := ihs bps' b q rest hchain
              (by simpa using hlen) hidx' hcg
            have halt : a < words.length := (List.getElem?_eq_some.mp hw).1
            have hleaf : (ParseTree.node sym []).leaves = [sym] := by
              rw [leaves_node,
                if_pos (by decide : ([] : List ParseTree).isEmpty = true),
                if_neg hnt]
            constructor
            · simp [hlen2]
            · rw [List.map_cons, List.flatten_cons, hleaf, hflat]
              have hslice : (words.drop a).take (b - a) = [sym] := by
                rw [hb1, List.drop_eq_getElem_cons halt]
                simp only [Nat.add_sub_cancel_left]
                rw [List.take_succ_cons, List.take_zero]
                have : words[a] = sym := by
                  have := hw
                  rw [List.getElem?_eq_getElem halt] at this
                  simpa using this
                rw [this]
              rw [← hslice]
              exact take_drop_concat words hab hbq
      · cases hchain

/-- Correctness of `_build_tree` on an invariant chart: a tree built
from a complete state stored in column `e` yields exactly
`words[start..e)`. -/
theorem buildTreeF_leaves {rules : List Rule} {words : List String} :
    ∀ (fuel : Nat) (chart : Chart), ChartInv rules words chart →
      noGammaBodies rules = true →
      ∀ (st : State) (e pos : Nat) (t : ParseTree),
        st ∈ chart.getD e [] → st.isComplete = true →
        buildTreeF fuel chart words st pos = some t →
        ParseTree.leaves t = (words.drop st.start).take (e - st.start) := by
  intro fuel
  induction fuel with
  | zero =>
    intro chart _ _ st e pos t _ _ h
    rw [buildTreeF_zero] at h
    cases h
  | succ f ih =>
    intro chart inv hγ st e pos t hm hcomp h
    rw [buildTreeF_succ] at h
    split at h
    · next hempty =>
      simp only [Option.some.injEq] at h
      subst h
      have hbody : st.rule.body = [] := by
        simpa using hempty
      have hdot0 : st.dot = 0 := by
        have h1 := inv.dotOK e st hm
        rw [hbody] at h1
        simpa using h1
      have hbps : st.backpointers = [] := by
        have h2 := inv.lenOK e st hm
        rw [hdot0] at h2
        exact List.length_eq_zero.mp h2
      have hse : st.start = e := by
        have h3 := inv.chainOK e st hm
        rw [hbps] at h3
        simpa [spanChain] using h3
      rw [leaves_node,
        if_pos (by decide : ([] : List ParseTree).isEmpty = true)]
      rcases inv.ruleOK e st hm with ⟨hr, -⟩ | ⟨hnt, -⟩
      · exfalso
        rw [hr] at hbody
        simp [startRule] at hbody
      · rw [if_pos hnt, hse]
        simp
    · next hnonempty =>
      cases hcg : childrenGo (fun s2 e2 => buildTreeF f chart words s2 e2)
          chart words st.rule.body st.backpointers with
      | none => rw [hcg] at h; simp at h
      | some cs =>
        rw [hcg] at h
        simp only [Option.some.injEq] at h
        subst h
        have hlen : st.rule.body.length = st.backpointers.length := by
          have h1 := inv.lenOK e st hm
          have h2 := inv.dotOK e st hm
          have h3 : st.rule.body.length ≤ st.dot := by
            simpa [State.isComplete] using hcomp
          omega
        have hidx : ∀ (j a b : Nat) (sym : String),
            st.rule.body[j]? = some sym →
            st.backpointers[j]? = some (a, b) →
            bpProp chart words sym a b ∧ a ≤ b := by
          intro j a b sym hsym hbp
          refine ⟨inv.bpOK hγ e st hm j a b sym hbp hsym, ?_⟩
          obtain ⟨hjlt, hEq⟩ := List.getElem?_eq_some.mp hbp
          exact inv.monoOK e st hm (a, b) (hEq ▸ List.getElem_mem hjlt)
        obtain ⟨hcslen, hflat⟩ := childrenGo_leaves inv
          (fun s2 e2 => buildTreeF f chart words s2 e2)
          (fun s2 e2 t2 hm2 hc2 hr2 => ih chart inv hγ s2 e2 e2 t2 hm2
            hc2 hr2)
          st.rule.body st.backpointers st.start e cs
          (inv.chainOK e st hm) hlen hidx hcg
        have hcsne : cs.isEmpty = false := by
          cases cs with
          | nil =>
            exfalso
            have : st.rule.body.length = 0 := by
              rw [← hcslen]
              rfl
            exact hnonempty (by simpa using List.length_eq_zero.mp this)
          | cons c cs' => rfl
        rw [leaves_node, hcsne]
        simp only [Bool.false_eq_true, if_false]
        exact hflat

/-- Claim C2 amended: for every grammar whose rule bodies never mention
the reserved start symbol `γ`, whenever `parse` returns accepted
together with a tree, the leaves of that tree read left to right equal
the input token sequence.  (Without the restriction the property fails:
see the counterexample, where a body occurrence of `γ` is matched by
the completed augmented rule with a zero-width span and the terminal
branch of `_build_tree` duplicates a token.) -/
theorem C2_leaf_roundtrip (fuel : Nat) (rules : List Rule)
    (words : List String) (t : ParseTree)
    (hγ : noGammaBodies rules = true)
    (h : parseF fuel rules words = some (true, some t)) :
    ParseTree.leaves t = words := by
  unfold parseF parseFull at h
  cases hbc : buildChart fuel rules words with
  | none => rw [hbc] at h; cases h
  | some chart =>
    rw [hbc] at h
    dsimp only at h
    have inv := buildChart_inv hbc
    cases hγf : (chart.getD words.length []).find? gammaPred with
    | none =>
      rw [hγf] at h
      simp at h
    | some g =>
      rw [hγf] at h
      cases hsf : (chart.getD words.length []).find? sPred with
      | none =>
        rw [hsf] at h
        simp at h
      | some sst =>
        rw [hsf] at h
        dsimp only at h
        cases hbt : buildTreeF fuel chart words sst words.length with
        | none => rw [hbt] at h; simp at h
        | some tree =>
          rw [hbt] at h
          simp only [Option.map_some', Option.some.injEq,
            Prod.mk.injEq, true_and] at h
          have ht : t = tree := by simpa using h.symm
          subst ht
          have hps := List.find?_some hsf
          rw [sPred_iff] at hps
          have hmem := List.mem_of_find?_eq_some hsf
          have hleaves := buildTreeF_leaves fuel chart inv hγ sst
            words.length words.length t hmem hps.1 hbt
          rw [hleaves, hps.2.2.1]
          simp

/-- Witness for C2 amended: the C6 grammar is γ-free and its accepted
tree for `x` has leaves exactly `[x]`. -/
theorem C2_leaf_roundtrip_witness : ParseTree.leaves c6tree = ["x"] :=
  C2_leaf_roundtrip 50 c6rules ["x"] c6tree (by decide) rfl

end Earley
